import Mathlib

/-!
Verification of the ai2go terminal-agent core against its natural-language
specification.  The Go sources are shallowly embedded: pure string and list
manipulation is translated to executable Lean functions over `String` /
`List Char`, stateful flows (the editor checkpoint engine, the streaming
tool-call assembler, the retry loop) become explicit state-passing functions,
and external effects (git apply, verification commands, the regexp engine,
HTTP responses) are parameters of the embedded functions.
-/

/- ## String primitives: translations of the Go `strings` helpers used by the code -/

/-- Translation of Go `strings.HasPrefix` on rune lists (first argument is the
prospective prefix of the second). -/
def listStartsWith : List Char → List Char → Bool
  | [], _ => true
  | _ :: _, [] => false
  | s :: ss, c :: cs => s = c && listStartsWith ss cs

/-- Kernel of `strings.TrimSpace`: drop leading and trailing whitespace runes. -/
def trimAux (l : List Char) : List Char :=
  ((l.dropWhile Char.isWhitespace).reverse.dropWhile Char.isWhitespace).reverse

/-- Translation of Go `strings.TrimSpace` (restricted to ASCII whitespace,
which covers every input the embedded code receives). -/
def trimSpace (s : String) : String := ⟨trimAux s.data⟩

/-- Fuel-bounded kernel of Go `strings.Split` for a non-empty separator:
splits around each leftmost non-overlapping occurrence. -/
def splitOnAux (sep : List Char) : Nat → List Char → List Char → List (List Char)
  | 0, acc, rest => [acc.reverse ++ rest]
  | _ + 1, acc, [] => [acc.reverse]
  | fuel + 1, acc, c :: cs =>
    if listStartsWith sep (c :: cs) then
      acc.reverse :: splitOnAux sep fuel [] (List.drop sep.length (c :: cs))
    else
      splitOnAux sep fuel (c :: acc) cs

/-- Translation of Go `strings.Split` (the code never calls it with an empty
separator; that case is returned unsplit). -/
def splitOnStr (s sep : String) : List String :=
  if sep.data = [] then [s]
  else (splitOnAux sep.data (s.data.length + 1) [] s.data).map (fun l => ⟨l⟩)

/-- Fuel-bounded kernel of Go `strings.ReplaceAll` for a non-empty pattern. -/
def replaceAllAux (pat repl : List Char) : Nat → List Char → List Char
  | 0, rest => rest
  | _ + 1, [] => []
  | fuel + 1, c :: cs =>
    if listStartsWith pat (c :: cs) then
      repl ++ replaceAllAux pat repl fuel (List.drop pat.length (c :: cs))
    else
      c :: replaceAllAux pat repl fuel cs

/-- Translation of Go `strings.ReplaceAll` (non-empty pattern in all uses). -/
def replaceAllStr (s pat repl : String) : String :=
  if pat.data = [] then s
  else ⟨replaceAllAux pat.data repl.data (s.data.length + 1) s.data⟩

/-- Translation of Go `strings.Join`. -/
def joinWith (ls : List String) (sep : String) : String :=
  match ls with
  | [] => ""
  | x :: xs => xs.foldl (fun acc y => acc ++ sep ++ y) x

/-- Translation of Go `strings.HasSuffix`. -/
def strEndsWith (s suffix : String) : Bool :=
  listStartsWith suffix.data.reverse s.data.reverse

/-- Translation of Go `strconv.Atoi`: optional sign followed by at least one
digit, nothing else (overflow is ignored; no input in scope approaches it). -/
def digitsToNatAux : List Char → Nat → Nat
  | [], acc => acc
  | c :: cs, acc => digitsToNatAux cs (acc * 10 + (c.toNat - 48))

/-- All characters are decimal digits. -/
def allDigits (l : List Char) : Bool := l.all Char.isDigit

/-- Translation of Go `strconv.Atoi`. -/
def atoiStr (s : String) : Option Int :=
  match s.data with
  | [] => none
  | '+' :: rest =>
    if rest ≠ [] ∧ allDigits rest then some (Int.ofNat (digitsToNatAux rest 0)) else none
  | '-' :: rest =>
    if rest ≠ [] ∧ allDigits rest then some (-(Int.ofNat (digitsToNatAux rest 0))) else none
  | l => if allDigits l then some (Int.ofNat (digitsToNatAux l 0)) else none

/- ## Association lists standing for Go maps (`map[string]T`) -/

/-- Lookup in an association list (the embedding of a Go map read). -/
def alLookup {α : Type} : List (String × α) → String → Option α
  | [], _ => none
  | (k, v) :: rest, key => if k = key then some v else alLookup rest key

/-- Insert-or-overwrite (the embedding of a Go map write). -/
def alSet {α : Type} : List (String × α) → String → α → List (String × α)
  | [], k, v => [(k, v)]
  | (k', v') :: rest, k, v =>
    if k' = k then (k, v) :: rest else (k', v') :: alSet rest k v

/-- Delete a key (the embedding of Go `delete(m, k)`). -/
def alDel {α : Type} : List (String × α) → String → List (String × α)
  | [], _ => []
  | (k', v') :: rest, k => if k' = k then rest else (k', v') :: alDel rest k

theorem alLookup_alSet_self {α : Type} (m : List (String × α)) (k : String) (v : α) :
    alLookup (alSet m k v) k = some v := by
  induction m with
  | nil => simp [alSet, alLookup]
  | cons kv rest ih =>
    obtain ⟨k', v'⟩ := kv
    by_cases h : k' = k
    · simp [alSet, alLookup, h]
    · simp [alSet, alLookup, h, ih]

theorem alLookup_alSet_ne {α : Type} (m : List (String × α)) (k k' : String) (v : α)
    (h : k' ≠ k) : alLookup (alSet m k v) k' = alLookup m k' := by
  have h2 : ¬ k = k' := fun hh => h hh.symm
  induction m with
  | nil => simp [alSet, alLookup, h2]
  | cons kv rest ih =>
    obtain ⟨k0, v0⟩ := kv
    by_cases h0 : k0 = k
    · subst h0
      simp [alSet, alLookup, h2]
    · simp [alSet, alLookup, h0, ih]

/- ## C8 — subagent factory option clamping (`runFactoryWithDepth`) -/

/-- Effective `max_concurrency` computed by `runFactoryWithDepth`:
non-positive values fall back to the default 3, values above 200 clamp. -/
def effMaxConcurrency (x : Int) : Int :=
  let m := if x ≤ 0 then 3 else x
  if m > 200 then 200 else m

/-- Effective `timeout_sec` computed by `runFactoryWithDepth`. -/
def effTimeoutSec (x : Int) : Int :=
  let t := if x ≤ 0 then 600 else x
  if t > 3600 then 3600 else t

/-- Effective `ttl_seconds` computed by `runFactoryWithDepth`. -/
def effTTLSeconds (x : Int) : Int :=
  let t := if x ≤ 0 then 600 else x
  if t > 86400 then 86400 else t

/-- C8: for every factory input, the effective `max_concurrency` lies in
[1, 200] with default 3, the effective `timeout_sec` lies in [1, 3600] with
default 600, and the effective `ttl_seconds` lies in [1, 86400] with default
600; in-range values pass through unchanged and larger values clamp to the
upper bound. -/
theorem factory_options_clamp (x : Int) :
    (1 ≤ effMaxConcurrency x ∧ effMaxConcurrency x ≤ 200) ∧
    (x ≤ 0 → effMaxConcurrency x = 3) ∧
    (1 ≤ x → x ≤ 200 → effMaxConcurrency x = x) ∧
    (200 < x → effMaxConcurrency x = 200) ∧
    (1 ≤ effTimeoutSec x ∧ effTimeoutSec x ≤ 3600) ∧
    (x ≤ 0 → effTimeoutSec x = 600) ∧
    (1 ≤ x → x ≤ 3600 → effTimeoutSec x = x) ∧
    (3600 < x → effTimeoutSec x = 3600) ∧
    (1 ≤ effTTLSeconds x ∧ effTTLSeconds x ≤ 86400) ∧
    (x ≤ 0 → effTTLSeconds x = 600) ∧
    (1 ≤ x → x ≤ 86400 → effTTLSeconds x = x) ∧
    (86400 < x → effTTLSeconds x = 86400) := by
  simp only [effMaxConcurrency, effTimeoutSec, effTTLSeconds]
  refine ⟨⟨?_, ?_⟩, ?_, ?_, ?_, ⟨?_, ?_⟩, ?_, ?_, ?_, ⟨?_, ?_⟩, ?_, ?_, ?_⟩ <;>
    intros <;> split_ifs <;> omega

/-- Concrete instance of the clamping theorem: a zero (unset) option takes the
default and an oversized option clamps. -/
theorem factory_options_clamp_witness :
    effMaxConcurrency 0 = 3 ∧ effTimeoutSec 9999 = 3600 := by
  refine ⟨(factory_options_clamp 0).2.1 ?_, (factory_options_clamp 9999).2.2.2.2.2.2.2.1 ?_⟩ <;> decide

/- ## C4 — subagent recursion depth (`Agent.executeToolCall`, `maxSubagentDepth`) -/

/-- The constant `maxSubagentDepth` from `internal/subagent/manager.go`. -/
def maxSubagentDepth : Nat := 2

/-- Outcome of dispatching a `subagent_factory` tool call: either a textual
tool error returned to the model, or a factory run at the given depth. -/
inductive FactoryCallResult where
  | toolError (msg : String)
  | factoryRun (depth : Nat)
deriving DecidableEq, Repr

/-- The `subagent_factory` arm of `Agent.executeToolCall`: refuse when
experimental mode is off, when the depth limit is reached, when the manager is
missing, or when the arguments do not parse; otherwise run the factory at
depth + 1. -/
def subagentFactoryDispatch (experimental : Bool) (depth : Nat)
    (managerAvailable parseOk : Bool) : FactoryCallResult :=
  if !experimental then
    .toolError "Error: subagent_factory is disabled for subagents. Enable experimental mode first."
  else if maxSubagentDepth ≤ depth then
    .toolError "Error: nested subagent depth limit reached (2)."
  else if !managerAvailable then
    .toolError "Error: subagent manager is unavailable."
  else if !parseOk then
    .toolError "Error: invalid arguments JSON"
  else
    .factoryRun (depth + 1)

/-- `runFactoryWithDepth` raises a depth below 1 to 1 before building the
blueprint; cloned child agents inherit the blueprint depth unchanged. -/
def childAgentDepth (factoryDepth : Nat) : Nat :=
  if factoryDepth < 1 then 1 else factoryDepth

/-- Depths at which an agent can actually run: the root factory entry point
(`RunFactory`) starts at depth 1, and a nested `subagent_factory` call that is
not refused spawns children at the depth it returns. -/
inductive ReachableAgentDepth : Nat → Prop where
  | root : ReachableAgentDepth (childAgentDepth 1)
  | nested (d d' : Nat) (exp mgr pk : Bool) :
      ReachableAgentDepth d →
      subagentFactoryDispatch exp d mgr pk = .factoryRun d' →
      ReachableAgentDepth (childAgentDepth d')

/-- C4: a `subagent_factory` call at the maximum depth returns a textual tool
error and never spawns a factory run; a permitted call at depth d runs the
factory at depth d + 1; and no reachable agent depth exceeds 2. -/
theorem subagent_depth_bounded :
    (∀ exp mgr pk d, maxSubagentDepth ≤ d →
      (∃ msg, subagentFactoryDispatch exp d mgr pk = .toolError msg) ∧
      (∀ d', subagentFactoryDispatch exp d mgr pk ≠ .factoryRun d')) ∧
    (∀ mgr pk, subagentFactoryDispatch true maxSubagentDepth mgr pk =
      .toolError "Error: nested subagent depth limit reached (2).") ∧
    (∀ d, d < maxSubagentDepth →
      subagentFactoryDispatch true d true true = .factoryRun (d + 1)) ∧
    (∀ d, ReachableAgentDepth d → d ≤ maxSubagentDepth) := by
  refine ⟨?_, ?_, ?_, ?_⟩
  · intro exp mgr pk d hd
    cases exp with
    | false => exact ⟨⟨_, rfl⟩, by intro d' h; simp [subagentFactoryDispatch] at h⟩
    | true =>
      constructor
      · exact ⟨"Error: nested subagent depth limit reached (2).",
          by simp [subagentFactoryDispatch, hd]⟩
      · intro d' h
        simp [subagentFactoryDispatch, hd] at h
  · intro mgr pk
    simp [subagentFactoryDispatch, maxSubagentDepth]
  · intro d hd
    have h2 : ¬ maxSubagentDepth ≤ d := by omega
    simp [subagentFactoryDispatch, h2]
  · intro d hreach
    induction hreach with
    | root => decide
    | nested d0 d' exp mgr pk _ heq ih =>
      unfold subagentFactoryDispatch at heq
      by_cases hexp : exp = false
      · simp [hexp] at heq
      · have hexp' : exp = true := by
          cases exp with
          | false => exact absurd rfl hexp
          | true => rfl
        subst hexp'
        by_cases hd0 : maxSubagentDepth ≤ d0
        · simp [hd0] at heq
        · by_cases hmgr : mgr = false
          · simp [hd0, hmgr] at heq
          · have hmgr' : mgr = true := by
              cases mgr with
              | false => exact absurd rfl hmgr
              | true => rfl
            subst hmgr'
            by_cases hpk : pk = false
            · simp [hd0, hpk] at heq
            · have hpk' : pk = true := by
                cases pk with
                | false => exact absurd rfl hpk
                | true => rfl
              subst hpk'
              simp [hd0] at heq
              have : d' = d0 + 1 := by
                cases heq
                rfl
              subst this
              unfold childAgentDepth
              unfold maxSubagentDepth at hd0 ⊢
              split_ifs <;> omega

/-- Concrete instance: at depth 2 the factory is refused with a textual error
and spawns nothing; at depth 1 it runs at depth 2. -/
theorem subagent_depth_bounded_witness :
    (subagentFactoryDispatch true 2 true true =
      .toolError "Error: nested subagent depth limit reached (2).") ∧
    subagentFactoryDispatch true 1 true true = .factoryRun 2 := by
  exact ⟨subagent_depth_bounded.2.1 true true,
    subagent_depth_bounded.2.2.1 1 (by decide)⟩

/- ## C5 — finalize window (`shouldFinalizeNow`, `Agent.forceFinalizeNoTools`) -/

/-- Nanoseconds per second: durations are embedded as Go `time.Duration`
nanosecond counts. -/
def nsecPerSecond : Int := 1000000000

/-- The constant `finalizeWindow` (20 seconds). -/
def finalizeWindow : Int := 20 * nsecPerSecond

/-- Translation of `shouldFinalizeNow`: `remaining` is `time.Until(deadline)`
when the context has a deadline, `none` otherwise. -/
def shouldFinalizeNow (remaining : Option Int) (threshold : Int) : Bool :=
  if threshold ≤ 0 then false
  else
    match remaining with
    | none => false
    | some r => decide (r ≤ threshold)

/-- Translation of the sub-budget computation in `forceFinalizeNoTools`:
returns the timeout installed for the finalize completion, or `none` when the
original context is used unchanged. -/
def finalizeBudget (remaining : Option Int) : Option Int :=
  match remaining with
  | none => none
  | some r =>
    if r > 2 * nsecPerSecond then
      let b := if r < 8 * nsecPerSecond then r - nsecPerSecond else 8 * nsecPerSecond
      if b > 0 then some b else none
    else none

/-- Translation of the return path in `Agent.Run` after the finalize
completion: `finalResult` is `none` when the completion errored, otherwise the
(already trimmed) final text; the boolean is true when the loop returns with
`context.DeadlineExceeded`. -/
def finalizeReturn (progress : String) (finalResult : Option String) : String × Bool :=
  match finalResult with
  | some t =>
    if trimSpace t ≠ "" then
      if progress ≠ "" then (trimSpace progress ++ "\n\n" ++ t, false) else (t, false)
    else if progress ≠ "" then (trimSpace progress, true) else ("", true)
  | none => if progress ≠ "" then (trimSpace progress, true) else ("", true)

/-- C5 counterexample: with exactly 8 seconds remaining the installed finalize
budget is 8 seconds, which exceeds the remaining time minus 1 second — the
claim that the budget never exceeds remaining − 1 s fails. -/
theorem finalize_budget_counterexample :
    finalizeBudget (some (8 * nsecPerSecond)) = some (8 * nsecPerSecond) ∧
    ¬ (8 * nsecPerSecond ≤ 8 * nsecPerSecond - nsecPerSecond) := by
  constructor
  · decide
  · decide

/-- C5 (amended): with a deadline present the finalize path fires iff the
remaining time is at most 20 seconds; the finalize completion gets a positive
sub-budget only when more than 2 seconds remain, that budget is at most
8 seconds and equals remaining − 1 s whenever the remaining time is below
8 seconds; and when the finalize completion yields no new text the loop
returns the accumulated (trimmed) progress with a DeadlineExceeded error. -/
theorem finalize_window_behavior :
    (∀ r : Int, shouldFinalizeNow (some r) finalizeWindow = true ↔ r ≤ finalizeWindow) ∧
    (shouldFinalizeNow none finalizeWindow = false) ∧
    (∀ r b : Int, finalizeBudget (some r) = some b →
      0 < b ∧ b ≤ 8 * nsecPerSecond ∧ 2 * nsecPerSecond < r ∧
        (r < 8 * nsecPerSecond → b = r - nsecPerSecond)) ∧
    (∀ r : Int, r ≤ 2 * nsecPerSecond → finalizeBudget (some r) = none) ∧
    (∀ progress : String, ∀ finalResult : Option String,
      (finalResult = none ∨ ∃ t, finalResult = some t ∧ trimSpace t = "") →
      (finalizeReturn progress finalResult).2 = true ∧
        (progress ≠ "" → (finalizeReturn progress finalResult).1 = trimSpace progress)) := by
  refine ⟨?_, ?_, ?_, ?_, ?_⟩
  · intro r
    have hpos : ¬ (finalizeWindow ≤ 0) := by decide
    simp [shouldFinalizeNow, hpos]
  · rfl
  · intro r b h
    simp only [finalizeBudget, nsecPerSecond] at h
    simp only [nsecPerSecond]
    split_ifs at h with h1 h2 h3 <;> simp at h <;> omega
  · intro r hr
    simp only [nsecPerSecond] at hr
    simp only [finalizeBudget, nsecPerSecond]
    have h1 : ¬ r > 2 * (1000000000 : Int) := by omega
    simp [h1]
    intro hgt
    exact absurd hgt (by omega)
  · intro progress finalResult hcase
    rcases hcase with h | ⟨t, ht, htrim⟩
    · subst h
      by_cases hp : progress = "" <;> simp [finalizeReturn, hp]
    · subst ht
      by_cases hp : progress = "" <;> simp [finalizeReturn, htrim, hp]

/-- Concrete instance: with 5 seconds remaining the finalize budget is exactly
4 seconds (remaining − 1 s), and an empty finalize completion returns the
trimmed progress with a DeadlineExceeded error. -/
theorem finalize_window_behavior_witness :
    (0 < (4 : Int) * nsecPerSecond ∧ (4 : Int) * nsecPerSecond ≤ 8 * nsecPerSecond ∧
      (2 : Int) * nsecPerSecond < 5 * nsecPerSecond ∧
      ((5 : Int) * nsecPerSecond < 8 * nsecPerSecond →
        (4 : Int) * nsecPerSecond = 5 * nsecPerSecond - nsecPerSecond)) ∧
    ((finalizeReturn " done " none).2 = true ∧
      (" done " ≠ "" → (finalizeReturn " done " none).1 = trimSpace " done ")) := by
  constructor
  · exact finalize_window_behavior.2.2.1 (5 * nsecPerSecond) (4 * nsecPerSecond) (by decide)
  · exact finalize_window_behavior.2.2.2.2 " done " none (Or.inl rfl)

/- ## C2 — completion-client retry policy (implementation absent from src; its
tests live in `internal/api/models.go`) -/

/-- The retry budget of the completion client (spec: up to 7 attempts). -/
def maxRetryAttempts : Nat := 7

/-- Modelled from the spec: the retry delay cap named `maxRetryDelay` by the
tests — back-off is clamped at 8 seconds. -/
def maxRetryDelay : Int := 8 * nsecPerSecond

/-- Modelled from the spec: `retryDelayForAttempt` (absent from src; exercised
by `TestRetryDelayForAttemptIsCapped`) — back-off doubles from a 2-second base
and is clamped at 8 seconds. -/
def retryDelayForAttempt (attempt : Nat) : Int :=
  min (2 * nsecPerSecond * 2 ^ (attempt - 1)) maxRetryDelay

/-- Modelled from the spec: `isRetryableStatus` (absent from src; exercised by
`TestRetryableStatuses`) — retry on 408, 429, 502, 503, 504 and any 5xx. -/
def isRetryableStatus (code : Nat) : Bool :=
  code == 408 || code == 429 || code == 502 || code == 503 || code == 504 ||
    (decide (500 ≤ code) && decide (code < 600))

/-- Modelled from the spec: a `Retry-After` header that parses (seconds
integer or HTTP date, carried here as the parsed duration) replaces the
computed delay, still clamped at 8 seconds. -/
def effectiveRetryDelay (attempt : Nat) (retryAfter : Option Int) : Int :=
  match retryAfter with
  | some d => min d maxRetryDelay
  | none => retryDelayForAttempt attempt

/-- One attempt of the retry loop as seen from outside: the transport fails,
or an HTTP response with a status code and an optional parsed Retry-After
delay arrives. -/
inductive RetryAttemptOutcome where
  | transportError
  | response (code : Nat) (retryAfter : Option Int)

/-- Final classification of a retry loop run. -/
inductive RetryOutcome where
  | ok
  | canceled
  | exhausted
  | apiError
deriving DecidableEq, Repr

/-- Observable record of a retry loop run: attempts actually issued, back-off
delays slept between attempts, and the final outcome. -/
structure RetryRun where
  attemptsMade : Nat
  delays : List Int
  outcome : RetryOutcome
deriving DecidableEq, Repr

/-- Modelled from the spec: the `doWithRetry` loop (absent from src; exercised
by `TestDoWithRetryHonorsCanceledContext`).  `trace n` gives, for attempt
number `n`, whether the caller context is already canceled when the attempt
would start, and the attempt outcome otherwise. -/
def runRetryGo (trace : Nat → Bool × RetryAttemptOutcome) : Nat → Nat → RetryRun
  | 0, _ => ⟨0, [], .exhausted⟩
  | remaining + 1, attemptNo =>
    match trace attemptNo with
    | (true, _) => ⟨0, [], .canceled⟩
    | (false, .transportError) =>
      if remaining = 0 then ⟨1, [], .exhausted⟩
      else
        let r := runRetryGo trace remaining (attemptNo + 1)
        ⟨r.attemptsMade + 1, retryDelayForAttempt attemptNo :: r.delays, r.outcome⟩
    | (false, .response code retryAfter) =>
      if code = 200 then ⟨1, [], .ok⟩
      else if isRetryableStatus code then
        if remaining = 0 then ⟨1, [], .exhausted⟩
        else
          let r := runRetryGo trace remaining (attemptNo + 1)
          ⟨r.attemptsMade + 1, effectiveRetryDelay attemptNo retryAfter :: r.delays, r.outcome⟩
      else ⟨1, [], .apiError⟩

/-- Modelled from the spec: run the retry loop with the 7-attempt budget
starting at attempt 1. -/
def runRetry (trace : Nat → Bool × RetryAttemptOutcome) : RetryRun :=
  runRetryGo trace maxRetryAttempts 1

theorem runRetryGo_attempts_le (trace : Nat → Bool × RetryAttemptOutcome) :
    ∀ n k, (runRetryGo trace n k).attemptsMade ≤ n := by
  intro n
  induction n with
  | zero => intro k; simp [runRetryGo]
  | succ m ih =>
    intro k
    simp only [runRetryGo]
    rcases htr : trace k with ⟨b, o⟩
    cases b
    · cases o with
      | transportError =>
        by_cases hm : m = 0
        · simp [hm]
        · simpa [hm] using Nat.succ_le_succ (ih (k + 1))
      | response code retryAfter =>
        by_cases h200 : code = 200
        · simp [h200]
        · by_cases hretry : isRetryableStatus code
          · by_cases hm : m = 0
            · simp [h200, hretry, hm]
            · simpa [h200, hretry, hm] using Nat.succ_le_succ (ih (k + 1))
          · simp [h200, hretry]
    · simp

/-- C2 (spec-modelled): the retry loop issues at most 7 attempts; the computed
back-off schedule for attempts 1..7 is exactly 2, 4, 8, 8, 8, 8, 8 seconds
(doubling from a 2-second base, clamped at 8 seconds) and matches the values
asserted by `TestRetryDelayForAttemptIsCapped`; a parsed Retry-After delay
replaces the computed one but is still clamped at 8 seconds; the retryable
statuses are exactly 408, 429, 502, 503, 504 and the 5xx range; a context that
is canceled when an attempt would start aborts the loop immediately with no
further attempts; and an all-503 run uses exactly 7 attempts with the computed
back-offs between them. -/
theorem retry_policy :
    (∀ trace, (runRetry trace).attemptsMade ≤ maxRetryAttempts) ∧
    ((List.range maxRetryAttempts).map (fun i => retryDelayForAttempt (i + 1)) =
      [2 * nsecPerSecond, 4 * nsecPerSecond, 8 * nsecPerSecond, 8 * nsecPerSecond,
        8 * nsecPerSecond, 8 * nsecPerSecond, 8 * nsecPerSecond]) ∧
    (retryDelayForAttempt 1 = 2 * nsecPerSecond ∧ retryDelayForAttempt 3 = 8 * nsecPerSecond ∧
      retryDelayForAttempt 7 = maxRetryDelay) ∧
    (∀ attempt d, effectiveRetryDelay attempt (some d) = min d maxRetryDelay ∧
      effectiveRetryDelay attempt (some d) ≤ maxRetryDelay ∧
      effectiveRetryDelay attempt none = retryDelayForAttempt attempt) ∧
    (∀ attempt, retryDelayForAttempt attempt ≤ maxRetryDelay) ∧
    (∀ code, isRetryableStatus code = true ↔
      (code = 408 ∨ code = 429 ∨ code = 502 ∨ code = 503 ∨ code = 504 ∨
        (500 ≤ code ∧ code ≤ 599))) ∧
    (∀ trace n k, (trace k).1 = true → runRetryGo trace (n + 1) k = ⟨0, [], .canceled⟩) ∧
    (runRetry (fun _ => (false, .response 503 none)) =
      ⟨7, [2 * nsecPerSecond, 4 * nsecPerSecond, 8 * nsecPerSecond, 8 * nsecPerSecond,
        8 * nsecPerSecond, 8 * nsecPerSecond], .exhausted⟩) := by
  refine ⟨?_, ?_, ?_, ?_, ?_, ?_, ?_, ?_⟩
  · intro trace
    exact runRetryGo_attempts_le trace maxRetryAttempts 1
  · decide
  · decide
  · intro attempt d
    exact ⟨rfl, min_le_right _ _, rfl⟩
  · intro attempt
    exact min_le_right _ _
  · intro code
    simp only [isRetryableStatus, Bool.or_eq_true, beq_iff_eq, Bool.and_eq_true,
      decide_eq_true_eq]
    omega
  · intro trace n k h
    rcases htr : trace k with ⟨b, o⟩
    rw [htr] at h
    simp only at h
    subst h
    simp [runRetryGo, htr]
  · decide

/-- Concrete instance: a context already canceled before the first attempt
aborts the loop with zero attempts. -/
theorem retry_policy_witness :
    runRetryGo (fun _ => (true, .transportError)) (6 + 1) 1 = ⟨0, [], .canceled⟩ :=
  retry_policy.2.2.2.2.2.2.1 (fun _ => (true, .transportError)) 6 1 rfl

/- ## Trim lemmas used by the splitter proofs -/

theorem dropWhile_head_false {α : Type} (p : α → Bool) (l : List α) (c : α) (cs : List α)
    (h : l.dropWhile p = c :: cs) : p c = false := by
  induction l with
  | nil => simp [List.dropWhile] at h
  | cons a l ih =>
    by_cases ha : p a
    · rw [List.dropWhile_cons, if_pos ha] at h
      exact ih h
    · rw [List.dropWhile_cons, if_neg ha] at h
      cases h
      exact Bool.eq_false_iff.mpr ha

theorem dropWhile_dropWhile_same {α : Type} (p : α → Bool) (l : List α) :
    (l.dropWhile p).dropWhile p = l.dropWhile p := by
  cases h : l.dropWhile p with
  | nil => simp
  | cons c cs =>
    have hc := dropWhile_head_false p l c cs h
    rw [List.dropWhile_cons, if_neg (by simp [hc])]

theorem trimAux_idem (l : List Char) : trimAux (trimAux l) = trimAux l := by
  unfold trimAux
  set ws := Char.isWhitespace with hws
  set l1 := l.dropWhile ws with hl1
  set l2 := l1.reverse.dropWhile ws with hl2
  have step1 : l2.reverse.dropWhile ws = l2.reverse := by
    cases hrev : l2.reverse with
    | nil => simp
    | cons x xs =>
      have hdecomp : l1.reverse.takeWhile ws ++ l2 = l1.reverse := by
        rw [hl2]; exact List.takeWhile_append_dropWhile ws l1.reverse
      have hl1eq : l1 = l2.reverse ++ (l1.reverse.takeWhile ws).reverse := by
        calc l1 = l1.reverse.reverse := by simp
          _ = (l1.reverse.takeWhile ws ++ l2).reverse := by rw [hdecomp]
          _ = l2.reverse ++ (l1.reverse.takeWhile ws).reverse := by
              rw [List.reverse_append]
      rw [hrev] at hl1eq
      have hx : ws x = false := by
        refine dropWhile_head_false ws l x (xs ++ (l1.reverse.takeWhile ws).reverse) ?_
        rw [← hl1]
        simpa using hl1eq
      rw [List.dropWhile_cons, if_neg (by simp [hx])]
  have step2 : l2.dropWhile ws = l2 := by
    rw [hl2]
    exact dropWhile_dropWhile_same ws l1.reverse
  calc ((l2.reverse.dropWhile ws).reverse.dropWhile ws).reverse
      = (l2.reverse.reverse.dropWhile ws).reverse := by rw [step1]
    _ = (l2.dropWhile ws).reverse := by simp
    _ = l2.reverse := by rw [step2]

theorem trimSpace_idem (s : String) : trimSpace (trimSpace s) = trimSpace s := by
  show (⟨trimAux (trimAux s.data)⟩ : String) = ⟨trimAux s.data⟩
  exact congrArg (fun l => (⟨l⟩ : String)) (trimAux_idem s.data)

/- ## C7 — `splitTasks` (`internal/subagent/manager.go`) -/

/-- The factory input record (`FactoryInput` in `manager.go`). -/
structure SubagentFactoryInput where
  taskListName : String
  megaPrompt : String
  splitSymbol : String
  splitRegex : String
  baseInstruction : String
  maxConcurrency : Int
  timeoutSec : Int
  ttlSeconds : Int
  outputDir : String
  model : String
deriving DecidableEq, Repr

/-- The default task delimiter. -/
def defaultSplitSymbol : String := "---TASK---"

/-- CRLF normalization performed at the top of `splitTasks`. -/
def normalizeNewlines (s : String) : String := replaceAllStr s "\r\n" "\n"

/-- The post-processing half of `splitTasks`: trim every piece, drop empties,
and fall back to the whole trimmed input when nothing survives. -/
def splitTasksPost (raw : String) (parts : List String) : List String :=
  if (parts.map trimSpace).filter (fun t => t ≠ "") = [] ∧ trimSpace raw ≠ "" then
    [trimSpace raw]
  else
    (parts.map trimSpace).filter (fun t => t ≠ "")

/-- Translation of `splitTasks`.  The Go regexp engine is abstracted as the
parameter `compileRegex`: compiling an invalid pattern yields `none`, a valid
pattern yields its splitting function. -/
def splitTasks (compileRegex : String → Option (String → List String))
    (input : SubagentFactoryInput) : Except String (List String) :=
  if trimSpace input.splitRegex ≠ "" then
    match compileRegex (trimSpace input.splitRegex) with
    | none => .error "invalid split_regex"
    | some re =>
      .ok (splitTasksPost (normalizeNewlines input.megaPrompt)
        (re (normalizeNewlines input.megaPrompt)))
  else
    .ok (splitTasksPost (normalizeNewlines input.megaPrompt)
      (splitOnStr (normalizeNewlines input.megaPrompt)
        (if trimSpace input.splitSymbol = "" then defaultSplitSymbol
         else trimSpace input.splitSymbol)))

theorem splitTasksPost_mem (raw : String) (parts : List String) (t : String)
    (h : t ∈ splitTasksPost raw parts) : t ≠ "" ∧ trimSpace t = t := by
  simp only [splitTasksPost] at h
  split_ifs at h with hcase
  · rcases List.mem_singleton.mp h with rfl
    exact ⟨hcase.2, trimSpace_idem raw⟩
  · have h1 := List.mem_filter.mp h
    have h2 : t ≠ "" := by simpa using h1.2
    rcases List.mem_map.mp h1.1 with ⟨p, _, hp⟩
    exact ⟨h2, by rw [← hp]; exact trimSpace_idem p⟩

theorem splitTasksPost_ne_nil (raw : String) (parts : List String)
    (h : trimSpace raw ≠ "") : splitTasksPost raw parts ≠ [] := by
  simp only [splitTasksPost]
  split_ifs with hcase
  · simp
  · intro hnil
    exact hcase ⟨hnil, h⟩

/-- The concrete mega prompt from the claim. -/
def c7ExampleInput : SubagentFactoryInput :=
  ⟨"", "a\n---TASK---\nb\n---TASK---\n\nc", "", "", "", 0, 0, 0, "", ""⟩

/-- A mega prompt with CRLF line endings. -/
def c7CRLFInput : SubagentFactoryInput :=
  ⟨"", "a\r\n---TASK---\r\nb", "", "", "", 0, 0, 0, "", ""⟩

/-- C7: `splitTasks` normalizes CRLF to LF, splits on the compiled
`split_regex` when non-empty (an invalid regex is an input error), otherwise
on `split_symbol` defaulting to the `---TASK---` delimiter, trims each piece
and drops empties, falls back to the whole trimmed input as one task when
nothing survives a non-blank input, and on the claimed example input yields
exactly the tasks a, b, c. -/
theorem splitTasks_behavior :
    (∀ compileRegex, splitTasks compileRegex c7ExampleInput = .ok ["a", "b", "c"]) ∧
    (∀ compileRegex, splitTasks compileRegex c7CRLFInput = .ok ["a", "b"]) ∧
    (∀ compileRegex input out, splitTasks compileRegex input = .ok out →
      ∀ t ∈ out, t ≠ "" ∧ trimSpace t = t) ∧
    (∀ compileRegex (input : SubagentFactoryInput), trimSpace input.splitRegex ≠ "" →
      compileRegex (trimSpace input.splitRegex) = none →
      splitTasks compileRegex input = .error "invalid split_regex") ∧
    (∀ compileRegex (input : SubagentFactoryInput) out,
      trimSpace input.splitRegex = "" →
      trimSpace (normalizeNewlines input.megaPrompt) ≠ "" →
      splitTasks compileRegex input = .ok out → out ≠ []) := by
  refine ⟨?_, ?_, ?_, ?_, ?_⟩
  · intro compileRegex
    have hregex : ¬ (trimSpace c7ExampleInput.splitRegex ≠ "") := by decide
    unfold splitTasks
    rw [if_neg hregex]
    congr 1
  · intro compileRegex
    have hregex : ¬ (trimSpace c7CRLFInput.splitRegex ≠ "") := by decide
    unfold splitTasks
    rw [if_neg hregex]
    congr 1
  · intro compileRegex input out h t ht
    unfold splitTasks at h
    split_ifs at h with hregex hsym
    · rcases hre : compileRegex (trimSpace input.splitRegex) with _ | re
      · rw [hre] at h
        simp at h
      · rw [hre] at h
        simp only [Except.ok.injEq] at h
        subst h
        exact splitTasksPost_mem _ _ t ht
    all_goals
      simp only [Except.ok.injEq] at h
      subst h
      exact splitTasksPost_mem _ _ t ht
  · intro compileRegex input hregex hcompile
    unfold splitTasks
    rw [if_pos hregex, hcompile]
  · intro compileRegex input out hregex hraw h
    unfold splitTasks at h
    rw [if_neg (by simp [hregex])] at h
    simp only [Except.ok.injEq] at h
    subst h
    exact splitTasksPost_ne_nil _ _ hraw


/-- Concrete instance: an invalid split regex is reported as an input error,
and the claimed example input splits to a, b, c. -/
theorem splitTasks_behavior_witness :
    splitTasks (fun _ => none) ⟨"", "x", "", "[", "", 0, 0, 0, "", ""⟩ =
      .error "invalid split_regex" ∧
    splitTasks (fun _ => none) c7ExampleInput = .ok ["a", "b", "c"] := by
  constructor
  · exact splitTasks_behavior.2.2.2.1 (fun _ => none)
      ⟨"", "x", "", "[", "", 0, 0, 0, "", ""⟩ (by decide) rfl
  · exact splitTasks_behavior.1 (fun _ => none)

/- ## C9 — `read_file` line-range parsing (`ReadFileWithLines`) -/

/-- The constant `maxReadFileLines` from `internal/tools/output_guard.go`. -/
def maxReadFileLines : Nat := 1000

/-- The constant `maxReadFileChars` from `internal/tools/output_guard.go`. -/
def maxReadFileChars : Nat := 15000

/-- Translation of `sanitizeText`: the identity on valid Unicode text, which
every Lean string already is. -/
def sanitizeText (s : String) : String := s

/-- The format-error message of the line-range parser (quotes dropped). -/
def lineRangeFormatErr : String :=
  "invalid line range format, use start-end (e.g., 400-600)"

/-- The value-error message of the line-range parser. -/
def lineRangeValueErr : String :=
  "invalid line range: start and end must be positive integers with start <= end"

/-- Translation of the line-range parsing block of `ReadFileWithLines` for a
non-empty range string: split on the dash, demand exactly two parts, parse
both with Atoi after trimming, and reject non-positive starts and reversed
ranges. -/
def parseLineRange (lineRange : String) : Except String (Int × Int) :=
  match splitOnStr lineRange "-" with
  | [p1, p2] =>
    match atoiStr (trimSpace p1), atoiStr (trimSpace p2) with
    | some s, some e =>
      if s < 1 ∨ e < s then .error lineRangeValueErr else .ok (s, e)
    | _, _ => .error lineRangeValueErr
  | _ => .error lineRangeFormatErr

/-- Translation of `truncationNotice`. -/
def truncationNotice (path : String) (totalLines totalChars : Nat)
    (lineLimited charLimited : Bool) : String :=
  "\n... [READ TRUNCATED: " ++
    joinWith ((if lineLimited then ["line limit (1000)"] else []) ++
      (if charLimited then ["char limit (15000)"] else [])) ", " ++
    " | file=" ++ path ++ " | read_lines=" ++ toString totalLines ++
    " read_chars=" ++ toString totalChars ++ "] ...\n"

/-- Take the first `n` runes of a string (Go `runes[:n]`). -/
def takeRunes (s : String) (n : Nat) : String := ⟨s.data.take n⟩

/-- Translation of the numbered-emission loop of `ReadFileWithLines`: returns
the emitted text, the line-limited and char-limited flags, and the final line
number and rune count. -/
def emitNumbered : List String → Nat → Nat → String × Bool × Bool × Nat × Nat
  | [], lineNum, totalChars => ("", false, false, lineNum, totalChars)
  | line :: rest, lineNum, totalChars =>
    if maxReadFileLines < lineNum then ("", true, false, lineNum, totalChars)
    else if maxReadFileChars < totalChars + (sanitizeText line).data.length then
      if 0 < maxReadFileChars - totalChars then
        (toString lineNum ++ " | " ++
            (if maxReadFileChars - totalChars < (sanitizeText line).data.length then
              takeRunes (sanitizeText line) (maxReadFileChars - totalChars)
             else sanitizeText line) ++ "\n",
          false, true, lineNum + 1,
          totalChars +
            (if maxReadFileChars - totalChars < (sanitizeText line).data.length then
              takeRunes (sanitizeText line) (maxReadFileChars - totalChars)
             else sanitizeText line).data.length)
      else ("", false, true, lineNum, totalChars)
    else
      (toString lineNum ++ " | " ++ sanitizeText line ++ "\n" ++
          (emitNumbered rest (lineNum + 1)
            (totalChars + (sanitizeText line).data.length)).1,
        (emitNumbered rest (lineNum + 1)
          (totalChars + (sanitizeText line).data.length)).2)

/-- Translation of `ReadFileWithLines` on an already-read text file (given as
its list of lines): parse the optional line range first, then emit numbered
lines under the read limits.  A parse failure is returned before any content
is inspected. -/
def readFileWithLines (path : String) (fileLines : List String)
    (lineRange : String) : Except String String :=
  match (if lineRange = "" then Except.ok ((1 : Int), ((2 : Int) ^ 63 - 1))
         else parseLineRange lineRange) with
  | .error e => .error e
  | .ok _ =>
    let r := emitNumbered fileLines 1 0
    let result :=
      if r.2.1 || r.2.2.1 then
        r.1 ++ truncationNotice path (r.2.2.2.1 - 1) r.2.2.2.2 r.2.1 r.2.2.1
      else r.1
    if trimSpace result = "" then .ok "(Empty text file)" else .ok result

/-- C9 counterexample: the single-line form is rejected with a format error,
refuting the claim that `read_file` accepts the form N. -/
theorem line_range_single_form_rejected :
    parseLineRange "5" = .error lineRangeFormatErr := by
  rfl

/-- C9 (amended): the line-range parser accepts only the form N-M; the
single-line form N is rejected with a format error; every accepted range has
a positive start and a non-reversed end (zero-based and reversed ranges are
rejected); and a parse failure is returned before any file content is
emitted — the result is the parse error regardless of the file lines. -/
theorem line_range_parser_behavior :
    (∀ r s e, parseLineRange r = .ok (s, e) → 1 ≤ s ∧ s ≤ e) ∧
    (parseLineRange "400-600" = .ok (400, 600)) ∧
    (parseLineRange "0-5" = .error lineRangeValueErr) ∧
    (parseLineRange "7-3" = .error lineRangeValueErr) ∧
    (parseLineRange "12" = .error lineRangeFormatErr) ∧
    (∀ path fileLines lineRange e, lineRange ≠ "" →
      parseLineRange lineRange = .error e →
      readFileWithLines path fileLines lineRange = .error e) := by
  refine ⟨?_, by rfl, by rfl, by rfl, by rfl, ?_⟩
  · intro r s e h
    unfold parseLineRange at h
    split at h
    rotate_left
    · exact absurd h (by simp)
    split at h
    rotate_left
    · exact absurd h (by simp)
    split_ifs at h with hbad
    all_goals cases h
    omega
  · intro path fileLines lineRange e hne hparse
    unfold readFileWithLines
    rw [if_neg hne, hparse]

/-- Concrete instance: the accepted range 400-600 has a positive start and a
non-reversed end. -/
theorem line_range_parser_behavior_witness :
    (1 : Int) ≤ 400 ∧ (400 : Int) ≤ 600 :=
  line_range_parser_behavior.1 "400-600" 400 600 (by rfl)

/- ## C3 — history API-safe view (`History.GetMessagesForAPI`) -/

/-- The `FunctionCall` record of `internal/api/models.go`. -/
structure FunctionCall where
  name : String
  arguments : String
deriving DecidableEq, Repr

/-- The `ToolCall` record of `internal/api/models.go`. -/
structure ToolCall where
  id : String
  type : String
  function : FunctionCall
deriving DecidableEq, Repr

/-- The `Message` record of `internal/api/models.go`. -/
structure Message where
  role : String
  content : String
  toolCalls : List ToolCall
  toolCallID : String
deriving DecidableEq, Repr

/-- Go set insertion `m[id] = struct` into the pending set, represented as a
duplicate-free list. -/
def insertID (pending : List String) (id : String) : List String :=
  if id ∈ pending then pending else pending ++ [id]

/-- Record every non-empty assistant tool-call ID into the pending set. -/
def registerCalls (pending : List String) : List ToolCall → List String
  | [] => pending
  | tc :: rest =>
    registerCalls (if tc.id = "" then pending else insertID pending tc.id) rest

/-- Go `delete(m, a)` on the pending set (single occurrence, as the set is
duplicate-free). -/
def eraseFirst : List String → String → List String
  | [], _ => []
  | x :: xs, a => if x = a then xs else x :: eraseFirst xs a

/-- Translation of the walk in `GetMessagesForAPI`: assistant messages
register their tool-call IDs and are admitted; tool messages are admitted only
when their ToolCallID is non-empty and pending (the ID is consumed on
admission); other roles pass through; the boolean records whether anything was
dropped. -/
def apiViewAux : List String → List Message → List Message × Bool
  | _, [] => ([], false)
  | pending, m :: rest =>
    if m.role = "assistant" then
      let r := apiViewAux (registerCalls pending m.toolCalls) rest
      (m :: r.1, r.2)
    else if m.role = "tool" then
      if m.toolCallID = "" then
        let r := apiViewAux pending rest
        (r.1, true)
      else if m.toolCallID ∈ pending then
        let r := apiViewAux (eraseFirst pending m.toolCallID) rest
        (m :: r.1, r.2)
      else
        let r := apiViewAux pending rest
        (r.1, true)
    else
      let r := apiViewAux pending rest
      (m :: r.1, r.2)

/-- Translation of `History.GetMessagesForAPI`: walk from an empty pending
set. -/
def getMessagesForAPI (msgs : List Message) : List Message × Bool :=
  apiViewAux [] msgs

theorem apiViewAux_assistant (pending : List String) (m : Message) (rest : List Message)
    (h : m.role = "assistant") :
    apiViewAux pending (m :: rest) =
      (m :: (apiViewAux (registerCalls pending m.toolCalls) rest).1,
        (apiViewAux (registerCalls pending m.toolCalls) rest).2) := by
  simp [apiViewAux, h]

theorem apiViewAux_tool_keep (pending : List String) (m : Message) (rest : List Message)
    (h1 : m.role = "tool") (h2 : m.toolCallID ≠ "") (h3 : m.toolCallID ∈ pending) :
    apiViewAux pending (m :: rest) =
      (m :: (apiViewAux (eraseFirst pending m.toolCallID) rest).1,
        (apiViewAux (eraseFirst pending m.toolCallID) rest).2) := by
  simp [apiViewAux, h1, h2, h3]

theorem apiViewAux_tool_drop_empty (pending : List String) (m : Message) (rest : List Message)
    (h1 : m.role = "tool") (h2 : m.toolCallID = "") :
    apiViewAux pending (m :: rest) = ((apiViewAux pending rest).1, true) := by
  simp [apiViewAux, h1, h2]

theorem apiViewAux_tool_drop_unmatched (pending : List String) (m : Message)
    (rest : List Message) (h1 : m.role = "tool") (h2 : m.toolCallID ≠ "")
    (h3 : m.toolCallID ∉ pending) :
    apiViewAux pending (m :: rest) = ((apiViewAux pending rest).1, true) := by
  simp [apiViewAux, h1, h2, h3]

theorem apiViewAux_other (pending : List String) (m : Message) (rest : List Message)
    (h1 : ¬ m.role = "assistant") (h2 : ¬ m.role = "tool") :
    apiViewAux pending (m :: rest) =
      (m :: (apiViewAux pending rest).1, (apiViewAux pending rest).2) := by
  simp [apiViewAux, h1, h2]

theorem mem_insertID (pending : List String) (id a : String)
    (h : a ∈ insertID pending id) : a ∈ pending ∨ a = id := by
  unfold insertID at h
  split_ifs at h
  · exact Or.inl h
  · rcases List.mem_append.mp h with h1 | h1
    · exact Or.inl h1
    · exact Or.inr (List.mem_singleton.mp h1)

theorem insertID_nodup (pending : List String) (id : String)
    (h : pending.Nodup) : (insertID pending id).Nodup := by
  unfold insertID
  split_ifs with hmem
  · exact h
  · simpa [List.nodup_append, hmem] using h

theorem mem_registerCalls :
    ∀ (tcs : List ToolCall) (pending : List String) (a : String),
      a ∈ registerCalls pending tcs →
      a ∈ pending ∨ a ∈ tcs.map (fun tc => tc.id) := by
  intro tcs
  induction tcs with
  | nil => intro pending a h; exact Or.inl h
  | cons tc rest ih =>
    intro pending a h
    rcases ih _ a h with h1 | h1
    · by_cases hid : tc.id = ""
      · rw [hid] at h1
        exact Or.inl h1
      · rw [if_neg hid] at h1
        rcases mem_insertID _ _ _ h1 with h2 | h2
        · exact Or.inl h2
        · exact Or.inr (by simp [h2])
    · exact Or.inr (by simp [h1])

theorem registerCalls_nodup :
    ∀ (tcs : List ToolCall) (pending : List String), pending.Nodup →
      (registerCalls pending tcs).Nodup := by
  intro tcs
  induction tcs with
  | nil => intro pending h; exact h
  | cons tc rest ih =>
    intro pending h
    refine ih _ ?_
    by_cases hid : tc.id = ""
    · rw [hid]
      simpa using h
    · rw [if_neg hid]
      exact insertID_nodup _ _ h

theorem mem_eraseFirst (l : List String) (b a : String)
    (h : a ∈ eraseFirst l b) : a ∈ l := by
  induction l with
  | nil => simp [eraseFirst] at h
  | cons x xs ih =>
    unfold eraseFirst at h
    split_ifs at h with hx
    · exact List.mem_cons_of_mem x h
    · rcases List.mem_cons.mp h with h1 | h1
      · exact h1 ▸ List.mem_cons_self x xs
      · exact List.mem_cons_of_mem x (ih h1)

theorem eraseFirst_nodup (l : List String) (b : String)
    (h : l.Nodup) : (eraseFirst l b).Nodup := by
  induction l with
  | nil => simp [eraseFirst]
  | cons x xs ih =>
    unfold eraseFirst
    rcases List.nodup_cons.mp h with ⟨hx, hxs⟩
    split_ifs with hxb
    · exact hxs
    · exact List.nodup_cons.mpr ⟨fun hmem => hx (mem_eraseFirst _ _ _ hmem), ih hxs⟩

theorem not_mem_eraseFirst_self (l : List String) (b : String)
    (h : l.Nodup) : b ∉ eraseFirst l b := by
  induction l with
  | nil => simp [eraseFirst]
  | cons x xs ih =>
    rcases List.nodup_cons.mp h with ⟨hx, hxs⟩
    unfold eraseFirst
    split_ifs with hxb
    · subst hxb
      exact hx
    · intro hmem
      rcases List.mem_cons.mp hmem with h1 | h1
      · exact hxb h1.symm
      · exact ih hxs h1

theorem apiViewAux_sublist :
    ∀ (msgs : List Message) (pending : List String),
      (apiViewAux pending msgs).1.Sublist msgs := by
  intro msgs
  induction msgs with
  | nil => intro pending; simp [apiViewAux]
  | cons m rest ih =>
    intro pending
    by_cases ha : m.role = "assistant"
    · rw [apiViewAux_assistant pending m rest ha]
      exact List.Sublist.cons₂ m (ih _)
    · by_cases ht : m.role = "tool"
      · by_cases hid : m.toolCallID = ""
        · rw [apiViewAux_tool_drop_empty pending m rest ht hid]
          exact List.Sublist.cons m (ih _)
        · by_cases hmem : m.toolCallID ∈ pending
          · rw [apiViewAux_tool_keep pending m rest ht hid hmem]
            exact List.Sublist.cons₂ m (ih _)
          · rw [apiViewAux_tool_drop_unmatched pending m rest ht hid hmem]
            exact List.Sublist.cons m (ih _)
      · rw [apiViewAux_other pending m rest ha ht]
        exact List.Sublist.cons₂ m (ih _)

theorem apiViewAux_changed_iff :
    ∀ (msgs : List Message) (pending : List String),
      (apiViewAux pending msgs).2 = true ↔
        (apiViewAux pending msgs).1.length < msgs.length := by
  intro msgs
  induction msgs with
  | nil => intro pending; simp [apiViewAux]
  | cons m rest ih =>
    intro pending
    by_cases ha : m.role = "assistant"
    · rw [apiViewAux_assistant pending m rest ha]
      simpa using ih (registerCalls pending m.toolCalls)
    · by_cases ht : m.role = "tool"
      · by_cases hid : m.toolCallID = ""
        · rw [apiViewAux_tool_drop_empty pending m rest ht hid]
          have hle := (apiViewAux_sublist rest pending).length_le
          simp only [List.length_cons]
          constructor
          · intro _; omega
          · intro _; trivial
        · by_cases hmem : m.toolCallID ∈ pending
          · rw [apiViewAux_tool_keep pending m rest ht hid hmem]
            simpa using ih (eraseFirst pending m.toolCallID)
          · rw [apiViewAux_tool_drop_unmatched pending m rest ht hid hmem]
            have hle := (apiViewAux_sublist rest pending).length_le
            simp only [List.length_cons]
            constructor
            · intro _; omega
            · intro _; trivial
      · rw [apiViewAux_other pending m rest ha ht]
        simpa using ih pending

theorem apiViewAux_assistant_fst (pending : List String) (m : Message) (rest : List Message)
    (h : m.role = "assistant") :
    (apiViewAux pending (m :: rest)).1 =
      m :: (apiViewAux (registerCalls pending m.toolCalls) rest).1 := by
  rw [apiViewAux_assistant pending m rest h]

theorem apiViewAux_tool_keep_fst (pending : List String) (m : Message) (rest : List Message)
    (h1 : m.role = "tool") (h2 : m.toolCallID ≠ "") (h3 : m.toolCallID ∈ pending) :
    (apiViewAux pending (m :: rest)).1 =
      m :: (apiViewAux (eraseFirst pending m.toolCallID) rest).1 := by
  rw [apiViewAux_tool_keep pending m rest h1 h2 h3]

theorem apiViewAux_tool_drop_empty_fst (pending : List String) (m : Message)
    (rest : List Message) (h1 : m.role = "tool") (h2 : m.toolCallID = "") :
    (apiViewAux pending (m :: rest)).1 = (apiViewAux pending rest).1 := by
  rw [apiViewAux_tool_drop_empty pending m rest h1 h2]

theorem apiViewAux_tool_drop_unmatched_fst (pending : List String) (m : Message)
    (rest : List Message) (h1 : m.role = "tool") (h2 : m.toolCallID ≠ "")
    (h3 : m.toolCallID ∉ pending) :
    (apiViewAux pending (m :: rest)).1 = (apiViewAux pending rest).1 := by
  rw [apiViewAux_tool_drop_unmatched pending m rest h1 h2 h3]

theorem apiViewAux_other_fst (pending : List String) (m : Message) (rest : List Message)
    (h1 : ¬ m.role = "assistant") (h2 : ¬ m.role = "tool") :
    (apiViewAux pending (m :: rest)).1 = m :: (apiViewAux pending rest).1 := by
  rw [apiViewAux_other pending m rest h1 h2]

theorem apiViewAux_admission :
    ∀ (msgs : List Message) (pending : List String), pending.Nodup →
      ∀ (pre : List Message) (t : Message) (post : List Message),
        (apiViewAux pending msgs).1 = pre ++ t :: post → t.role = "tool" →
        t.toolCallID ≠ "" ∧
        ((∃ pre1 a pre2, pre = pre1 ++ a :: pre2 ∧ a.role = "assistant" ∧
            t.toolCallID ∈ a.toolCalls.map (fun tc => tc.id) ∧
            ∀ u ∈ pre2, u.role = "tool" → u.toolCallID ≠ t.toolCallID) ∨
          (t.toolCallID ∈ pending ∧
            ∀ u ∈ pre, u.role = "tool" → u.toolCallID ≠ t.toolCallID)) := by
  intro msgs
  induction msgs with
  | nil =>
    intro pending hnd pre t post hsplit ht
    simp [apiViewAux] at hsplit
  | cons m rest ih =>
    intro pending hnd pre t post hsplit ht
    by_cases ha : m.role = "assistant"
    · rw [apiViewAux_assistant_fst pending m rest ha] at hsplit
      cases pre with
      | nil =>
        simp only [List.nil_append] at hsplit
        injection hsplit with h1 h2
        subst h1
        rw [ha] at ht
        exact absurd ht (by decide)
      | cons p0 pre' =>
        simp only [List.cons_append] at hsplit
        injection hsplit with h1 h2
        subst h1
        obtain ⟨htid, hdisj⟩ :=
          ih (registerCalls pending m.toolCalls) (registerCalls_nodup _ _ hnd)
            pre' t post h2 ht
        refine ⟨htid, ?_⟩
        rcases hdisj with ⟨pre1, a, pre2, hpre', hrole, hmem, hdup⟩ | ⟨hp, hall⟩
        · exact Or.inl ⟨m :: pre1, a, pre2, by simp [hpre'], hrole, hmem, hdup⟩
        · rcases mem_registerCalls m.toolCalls pending t.toolCallID hp with hpend | hid
          · right
            refine ⟨hpend, ?_⟩
            intro u hu hur
            rcases List.mem_cons.mp hu with rfl | hu'
            · rw [ha] at hur
              exact absurd hur (by decide)
            · exact hall u hu' hur
          · exact Or.inl ⟨[], m, pre', by simp, ha, hid, hall⟩
    · by_cases htl : m.role = "tool"
      · by_cases hid0 : m.toolCallID = ""
        · rw [apiViewAux_tool_drop_empty_fst pending m rest htl hid0] at hsplit
          exact ih pending hnd pre t post hsplit ht
        · by_cases hmem0 : m.toolCallID ∈ pending
          · rw [apiViewAux_tool_keep_fst pending m rest htl hid0 hmem0] at hsplit
            cases pre with
            | nil =>
              simp only [List.nil_append] at hsplit
              injection hsplit with h1 h2
              subst h1
              refine ⟨hid0, Or.inr ⟨hmem0, ?_⟩⟩
              intro u hu
              exact absurd hu (List.not_mem_nil u)
            | cons p0 pre' =>
              simp only [List.cons_append] at hsplit
              injection hsplit with h1 h2
              subst h1
              obtain ⟨htid, hdisj⟩ :=
                ih (eraseFirst pending m.toolCallID) (eraseFirst_nodup _ _ hnd)
                  pre' t post h2 ht
              refine ⟨htid, ?_⟩
              rcases hdisj with ⟨pre1, a, pre2, hpre', hrole, hmem, hdup⟩ | ⟨hp, hall⟩
              · exact Or.inl ⟨m :: pre1, a, pre2, by simp [hpre'], hrole, hmem, hdup⟩
              · have htm : t.toolCallID ∈ pending := mem_eraseFirst _ _ _ hp
                have hne : t.toolCallID ≠ m.toolCallID := by
                  intro heq
                  rw [heq] at hp
                  exact not_mem_eraseFirst_self pending m.toolCallID hnd hp
                right
                refine ⟨htm, ?_⟩
                intro u hu hur
                rcases List.mem_cons.mp hu with rfl | hu'
                · exact fun hh => hne hh.symm
                · exact hall u hu' hur
          · rw [apiViewAux_tool_drop_unmatched_fst pending m rest htl hid0 hmem0] at hsplit
            exact ih pending hnd pre t post hsplit ht
      · rw [apiViewAux_other_fst pending m rest ha htl] at hsplit
        cases pre with
        | nil =>
          simp only [List.nil_append] at hsplit
          injection hsplit with h1 h2
          subst h1
          exact absurd ht htl
        | cons p0 pre' =>
          simp only [List.cons_append] at hsplit
          injection hsplit with h1 h2
          subst h1
          obtain ⟨htid, hdisj⟩ := ih pending hnd pre' t post h2 ht
          refine ⟨htid, ?_⟩
          rcases hdisj with ⟨pre1, a, pre2, hpre', hrole, hmem, hdup⟩ | ⟨hp, hall⟩
          · exact Or.inl ⟨m :: pre1, a, pre2, by simp [hpre'], hrole, hmem, hdup⟩
          · right
            refine ⟨hp, ?_⟩
            intro u hu hur
            rcases List.mem_cons.mp hu with rfl | hu'
            · exact absurd hur htl
            · exact hall u hu' hur

/-- C3: the API-safe view is an order-preserving sublist of the history; the
returned boolean is true iff at least one message was dropped; and every
admitted tool message has a non-empty ToolCallID matched by an earlier
admitted assistant message whose ID was not consumed by any tool message
admitted in between (duplicates are disallowed by consuming the ID on
admission). -/
theorem history_api_view (msgs : List Message) :
    ((getMessagesForAPI msgs).1.Sublist msgs) ∧
    ((getMessagesForAPI msgs).2 = true ↔
      (getMessagesForAPI msgs).1.length < msgs.length) ∧
    (∀ pre t post, (getMessagesForAPI msgs).1 = pre ++ t :: post → t.role = "tool" →
      t.toolCallID ≠ "" ∧
      ∃ pre1 a pre2, pre = pre1 ++ a :: pre2 ∧ a.role = "assistant" ∧
        t.toolCallID ∈ a.toolCalls.map (fun tc => tc.id) ∧
        ∀ u ∈ pre2, u.role = "tool" → u.toolCallID ≠ t.toolCallID) := by
  refine ⟨apiViewAux_sublist msgs [], apiViewAux_changed_iff msgs [], ?_⟩
  intro pre t post hsplit ht
  obtain ⟨htid, hdisj⟩ :=
    apiViewAux_admission msgs [] List.nodup_nil pre t post hsplit ht
  refine ⟨htid, ?_⟩
  rcases hdisj with hcase | ⟨hp, _⟩
  · exact hcase
  · exact absurd hp (List.not_mem_nil _)

/-- Example history: one assistant tool call, its tool response, a duplicate
tool response, and an orphan tool response. -/
def c3A : Message := ⟨"assistant", "", [⟨"t1", "function", ⟨"get_page_size", ""⟩⟩], ""⟩

/-- The matching tool response. -/
def c3T : Message := ⟨"tool", "4096", [], "t1"⟩

/-- A duplicate tool response for the already-consumed ID. -/
def c3TDup : Message := ⟨"tool", "dup", [], "t1"⟩

/-- A tool response with an unmatched ID. -/
def c3Orphan : Message := ⟨"tool", "orphan", [], "t9"⟩

/-- The example history. -/
def c3Hist : List Message := [c3A, c3T, c3TDup, c3Orphan]

example : getMessagesForAPI c3Hist = ([c3A, c3T], true) := by decide

/-- Concrete instance: in the example history the admitted tool message has a
non-empty ID matched by the earlier assistant message, and the duplicate and
orphan tool messages are dropped (the view is strictly shorter and flagged). -/
theorem history_api_view_witness :
    (c3T.toolCallID ≠ "" ∧
      ∃ pre1 a pre2, ([c3A] : List Message) = pre1 ++ a :: pre2 ∧
        a.role = "assistant" ∧
        c3T.toolCallID ∈ a.toolCalls.map (fun tc => tc.id) ∧
        ∀ u ∈ pre2, u.role = "tool" → u.toolCallID ≠ c3T.toolCallID) ∧
    (getMessagesForAPI c3Hist).2 = true := by
  constructor
  · exact (history_api_view c3Hist).2.2 [c3A] c3T [] (by decide) (by decide)
  · exact ((history_api_view c3Hist).2.1).mpr (by decide)

/- ## C10 — `patch_file` (`ApplyFilePatch`): duplicate addresses, last one wins -/

/-- A parsed patch operation (the `Operation` record of `ApplyFilePatch`). -/
inductive PatchOp where
  | opDelete
  | opReplace (lines : List String)
  | opInsertBefore (lines : List String)
  | opInsertAfter (lines : List String)
deriving DecidableEq, Repr

/-- The whitespace class of the Go regexp escape in the patch-line pattern. -/
def goSpaceChar (c : Char) : Bool :=
  c == '\t' || c == '\n' || c == '\x0c' || c == '\r' || c == ' '

/-- Translation of the patch-line regexp: one or more digits, a two-character
operator, an optional single whitespace character, then the content. -/
def parsePatchLine (line : String) : Option (String × String × String) :=
  let ds := line.data.takeWhile Char.isDigit
  if ds = [] then none
  else
    match line.data.dropWhile Char.isDigit with
    | o1 :: o2 :: rest2 =>
      if (o1 = '+' ∧ o2 = '+') ∨ (o1 = '-' ∧ o2 = '-') ∨
          (o1 = '<' ∧ o2 = '<') ∨ (o1 = '>' ∧ o2 = '>') then
        some (⟨ds⟩, ⟨[o1, o2]⟩,
          ⟨match rest2 with
            | c :: cs => if goSpaceChar c then cs else rest2
            | [] => []⟩)
      else none
    | _ => none

/-- Translation of the content processing: replace literal backslash-n escapes
with real newlines and split into lines (empty content yields no lines). -/
def splitPatchText (text : String) : List String :=
  if replaceAllStr text "\\n" "\n" = "" then []
  else splitOnStr (replaceAllStr text "\\n" "\n") "\n"

/-- Translation of the operator switch in `ApplyFilePatch`. -/
def mkPatchOp (target op : String) (ls : List String) : Option PatchOp :=
  if op = "--" then some .opDelete
  else if op = "++" then
    if target = "0" then some (.opInsertBefore ls)
    else if target = "00" then some (.opInsertAfter ls)
    else some (.opReplace ls)
  else if op = "<<" then some (.opInsertBefore ls)
  else if op = ">>" then some (.opInsertAfter ls)
  else none

/-- The operation contributed by one patch line: blank lines and lines that do
not match the pattern contribute nothing. -/
def patchLineOp (line : String) : Option (String × PatchOp) :=
  if trimSpace line = "" then none
  else
    match parsePatchLine line with
    | none => none
    | some (target, op, text) =>
      match mkPatchOp target op (splitPatchText text) with
      | none => none
      | some o => some (target, o)

/-- One step of the ops-map construction: a matching line overwrites the entry
at its target address. -/
def patchOpStep (m : List (String × PatchOp)) (line : String) : List (String × PatchOp) :=
  match patchLineOp line with
  | none => m
  | some (t, o) => alSet m t o

/-- Translation of the parse loop of `ApplyFilePatch`: fold the patch lines
into the ops map. -/
def parsePatchOps (lines : List String) : List (String × PatchOp) :=
  lines.foldl patchOpStep []

/-- Specification-side description of the map contents: the operation of the
last patch line addressing the target, if any. -/
def lastPatchOp (lines : List String) (target : String) : Option PatchOp :=
  lines.reverse.findSome? (fun line =>
    match patchLineOp line with
    | some (t, o) => if t = target then some o else none
    | none => none)

/-- Strip one trailing carriage return (`bufio.Scanner` line semantics). -/
def dropCR (s : String) : String :=
  if s.data.getLast? = some '\r' then ⟨s.data.dropLast⟩ else s

/-- Split patch content into scanner lines.  A trailing newline produces one
extra empty line compared to `bufio.Scanner`; it is blank and therefore
skipped by the parse loop, so the ops map is unaffected. -/
def scanLines (s : String) : List String := (splitOnStr s "\n").map dropCR

/-- Drop the empty final element produced by splitting a newline-terminated
file (the split edge case fixed at the top of `ApplyFilePatch`). -/
def dropTrailingEmpty (ls : List String) : List String :=
  if ls ≠ [] ∧ ls.getLast? = some "" then ls.dropLast else ls

/-- Translation of `ApplyFilePatch` on the file content (the read and write
are outside the embedding): parse the ops map, then rebuild the file from the
original lines, consulting the map once per original line number, plus the
prepend (address 0) and append (address 00) entries. -/
def applyFilePatch (content patchContent : String) : String :=
  let originalLines := dropTrailingEmpty (splitOnStr content "\n")
  let ops := parsePatchOps (scanLines patchContent)
  let prepended :=
    match alLookup ops "0" with
    | some (.opInsertBefore ls) => ls
    | _ => []
  let body := (originalLines.enum.map (fun il =>
    match alLookup ops (toString (il.1 + 1)) with
    | some .opDelete => []
    | some (.opReplace ls) => ls
    | some (.opInsertBefore _) => [il.2]
    | some (.opInsertAfter ls) => il.2 :: ls
    | none => [il.2])).flatten
  let appended :=
    match alLookup ops "00" with
    | some (.opInsertAfter ls) => ls
    | _ => []
  let final := joinWith (prepended ++ body ++ appended) "\n"
  if strEndsWith final "\n" then final else final ++ "\n"

/-- C10: the ops map built by `ApplyFilePatch` retains, for every target
address, exactly the operation of the last patch line addressing it — all
earlier operations on that address are silently discarded — and the rebuild
consults the map once per original line, so at most one operation applies per
line; concrete instances show the last of two replacements winning, a
replacement overriding an earlier delete, and the last prepend winning. -/
theorem patch_file_last_op_wins :
    (∀ patchLines target,
      alLookup (parsePatchOps patchLines) target = lastPatchOp patchLines target) ∧
    (applyFilePatch "a\nb\n" "1++ X\n1++ Y" = "Y\nb\n") ∧
    (applyFilePatch "a\nb\n" "1--\n1++ Z" = "Z\nb\n") ∧
    (applyFilePatch "a\n" "0++ p\n0++ q" = "q\na\n") ∧
    (applyFilePatch "a\nb\nc\n" "2--" = "a\nc\n") := by
  refine ⟨?_, by decide, by decide, by decide, by decide⟩
  intro patchLines target
  induction patchLines using List.reverseRecOn with
  | nil => rfl
  | append_singleton ls l ih =>
    have hstep : parsePatchOps (ls ++ [l]) = patchOpStep (parsePatchOps ls) l := by
      simp [parsePatchOps, List.foldl_append]
    have hrev : (ls ++ [l]).reverse = l :: ls.reverse := by
      simp
    rcases hline : patchLineOp l with _ | ⟨t, o⟩
    · rw [hstep]
      unfold patchOpStep
      rw [hline]
      rw [ih]
      unfold lastPatchOp
      rw [hrev, List.findSome?_cons, hline]
    · rw [hstep]
      unfold patchOpStep
      rw [hline]
      by_cases ht : t = target
      · subst ht
        rw [alLookup_alSet_self]
        unfold lastPatchOp
        rw [hrev, List.findSome?_cons, hline]
        simp
      · rw [alLookup_alSet_ne _ _ _ _ (fun hh => ht hh.symm)]
        rw [ih]
        unfold lastPatchOp
        rw [hrev, List.findSome?_cons, hline]
        simp [ht]

/- ## C6 — streaming tool-call reassembly (`handleStreamingResponse`) -/

theorem str_empty_append (s : String) : "" ++ s = s := by
  cases s with
  | mk d => rfl

theorem str_append_empty (s : String) : s ++ "" = s := by
  cases s with
  | mk d =>
    show String.mk (d ++ []) = ⟨d⟩
    rw [List.append_nil]

/-- The placeholder key `idx:<i>` used when a fragment carries no ID. -/
def fragFallback (i : Nat) : String := "idx:" ++ toString i

/-- The key under which a fragment accumulates: its emitted ID when non-empty,
else the placeholder. -/
def fragKey (i : Nat) (c : ToolCall) : String :=
  if c.id = "" then fragFallback i else c.id

/-- The accumulation state of `handleStreamingResponse`: the Go map plus the
first-appearance key order. -/
structure StreamState where
  map : List (String × ToolCall)
  order : List String
deriving DecidableEq, Repr

/-- Replace the first occurrence of a key in the order list (the migration
loop over `toolCallOrder`). -/
def replaceFirst : List String → String → String → List String
  | [], _, _ => []
  | x :: xs, a, b => if x = a then b :: xs else x :: replaceFirst xs a b

/-- Index of the first occurrence of a key (length when absent). -/
def idxOfStr : List String → String → Nat
  | [], _ => 0
  | x :: xs, a => if x = a then 0 else idxOfStr xs a + 1

/-- Fold one fragment into an accumulated tool call: name and arguments are
concatenated, ID and type are overwritten by non-empty fragment values. -/
def applyFragmentFields (tc c : ToolCall) : ToolCall :=
  ⟨if c.id ≠ "" then c.id else tc.id,
   if c.type ≠ "" then c.type else tc.type,
   ⟨if c.function.name ≠ "" then tc.function.name ++ c.function.name
     else tc.function.name,
    if c.function.arguments ≠ "" then tc.function.arguments ++ c.function.arguments
     else tc.function.arguments⟩⟩

/-- The migration step: when a fragment carries a real ID and the placeholder
for its index is present, move the accumulated entry to the real ID and
replace the placeholder in the order list in place. -/
def migrateStep (st : StreamState) (i : Nat) (c : ToolCall) : StreamState :=
  if c.id ≠ "" ∧ c.id ≠ fragFallback i then
    match alLookup st.map (fragFallback i) with
    | some existing =>
      ⟨alSet (alDel st.map (fragFallback i)) c.id existing,
       replaceFirst st.order (fragFallback i) c.id⟩
    | none => st
  else st

/-- Create the entry for a key on first appearance, recording the key at the
end of the order list. -/
def ensureStep (st : StreamState) (key : String) (c : ToolCall) : StreamState :=
  match alLookup st.map key with
  | some _ => st
  | none => ⟨alSet st.map key ⟨c.id, c.type, ⟨"", ""⟩⟩, st.order ++ [key]⟩

/-- Append the fragment fields into the entry for the key. -/
def appendStep (st : StreamState) (key : String) (c : ToolCall) : StreamState :=
  match alLookup st.map key with
  | some tc => ⟨alSet st.map key (applyFragmentFields tc c), st.order⟩
  | none => st

/-- Translation of the per-fragment body of the streaming loop. -/
def processFragment (st : StreamState) (i : Nat) (c : ToolCall) : StreamState :=
  appendStep (ensureStep (migrateStep st i c) (fragKey i c) c) (fragKey i c) c

/-- Translation of one streamed delta: fragments are processed with their
index within the delta. -/
def processDelta (st : StreamState) (chunks : List ToolCall) : StreamState :=
  chunks.enum.foldl (fun s ic => processFragment s ic.1 ic.2) st

/-- The state after the whole stream. -/
def finalStreamState (deltas : List (List ToolCall)) : StreamState :=
  deltas.foldl processDelta ⟨[], []⟩

/-- Translation of the end-of-stream emission: keys in first-appearance
order, resolved through the map. -/
def assembleToolCalls (deltas : List (List ToolCall)) : List ToolCall :=
  (finalStreamState deltas).order.filterMap (alLookup (finalStreamState deltas).map)

theorem replaceFirst_length (l : List String) (a b : String) :
    (replaceFirst l a b).length = l.length := by
  induction l with
  | nil => rfl
  | cons x xs ih =>
    unfold replaceFirst
    split_ifs <;> simp [ih]

theorem replaceFirst_get? (l : List String) (a b : String) :
    ∀ p, (replaceFirst l a b).get? p =
      if p = idxOfStr l a ∧ a ∈ l then some b else l.get? p := by
  induction l with
  | nil => intro p; simp [replaceFirst]
  | cons x xs ih =>
    intro p
    by_cases hx : x = a
    · subst hx
      unfold replaceFirst idxOfStr
      simp only [if_pos rfl]
      cases p with
      | zero => simp
      | succ q => simp
    · unfold replaceFirst idxOfStr
      rw [if_neg hx, if_neg hx]
      cases p with
      | zero =>
        have : ¬ ((0 : Nat) = idxOfStr xs a + 1 ∧ a ∈ x :: xs) := by
          intro hcon
          omega
        simp [this]
      | succ q =>
        have hmem : (a ∈ x :: xs) ↔ a ∈ xs := by
          constructor
          · intro h
            rcases List.mem_cons.mp h with h1 | h1
            · exact absurd h1.symm hx
            · exact h1
          · exact fun h => List.mem_cons_of_mem x h
        have hq : (q + 1 = idxOfStr xs a + 1) ↔ q = idxOfStr xs a := by omega
        simp only [List.get?_cons_succ]
        rw [ih q]
        by_cases hcond : q = idxOfStr xs a ∧ a ∈ xs
        · rw [if_pos hcond, if_pos ⟨hq.mpr hcond.1, hmem.mpr hcond.2⟩]
        · rw [if_neg hcond, if_neg (fun hcon => hcond ⟨hq.mp hcon.1, hmem.mp hcon.2⟩)]

theorem processFragment_migrate (st : StreamState) (i : Nat) (c ex : ToolCall)
    (h1 : c.id ≠ "") (h2 : c.id ≠ fragFallback i)
    (h3 : alLookup st.map (fragFallback i) = some ex) :
    processFragment st i c =
      ⟨alSet (alSet (alDel st.map (fragFallback i)) c.id ex) c.id
          (applyFragmentFields ex c),
        replaceFirst st.order (fragFallback i) c.id⟩ := by
  have hkey : fragKey i c = c.id := by simp [fragKey, h1]
  have hmig : migrateStep st i c =
      ⟨alSet (alDel st.map (fragFallback i)) c.id ex,
        replaceFirst st.order (fragFallback i) c.id⟩ := by
    unfold migrateStep
    rw [if_pos ⟨h1, h2⟩, h3]
  have hlook : alLookup (alSet (alDel st.map (fragFallback i)) c.id ex) c.id = some ex :=
    alLookup_alSet_self _ _ _
  unfold processFragment
  rw [hkey, hmig]
  unfold ensureStep
  rw [hlook]
  unfold appendStep
  rw [hlook]

theorem processFragment_existing_anon (st : StreamState) (i : Nat) (c tc : ToolCall)
    (h1 : c.id = "") (h3 : alLookup st.map (fragFallback i) = some tc) :
    processFragment st i c =
      ⟨alSet st.map (fragFallback i) (applyFragmentFields tc c), st.order⟩ := by
  have hkey : fragKey i c = fragFallback i := by simp [fragKey, h1]
  have hmig : migrateStep st i c = st := by
    unfold migrateStep
    rw [if_neg (by simp [h1])]
  unfold processFragment
  rw [hkey, hmig]
  unfold ensureStep
  rw [h3]
  unfold appendStep
  rw [h3]

theorem processFragment_fresh_anon (st : StreamState) (i : Nat) (c : ToolCall)
    (h1 : c.id = "") (h3 : alLookup st.map (fragFallback i) = none) :
    processFragment st i c =
      ⟨alSet (alSet st.map (fragFallback i) ⟨c.id, c.type, ⟨"", ""⟩⟩) (fragFallback i)
          (applyFragmentFields ⟨c.id, c.type, ⟨"", ""⟩⟩ c),
        st.order ++ [fragFallback i]⟩ := by
  have hkey : fragKey i c = fragFallback i := by simp [fragKey, h1]
  have hmig : migrateStep st i c = st := by
    unfold migrateStep
    rw [if_neg (by simp [h1])]
  have hlook : alLookup (alSet st.map (fragFallback i) ⟨c.id, c.type, ⟨"", ""⟩⟩)
      (fragFallback i) = some ⟨c.id, c.type, ⟨"", ""⟩⟩ :=
    alLookup_alSet_self _ _ _
  unfold processFragment
  rw [hkey, hmig]
  unfold ensureStep
  rw [h3]
  unfold appendStep
  rw [hlook]

/-- The anonymous fragment of the end-to-end example. -/
def c6Anon : ToolCall := ⟨"", "function", ⟨"get_", "(a"⟩⟩

/-- A fragment with an immediate real ID. -/
def c6B : ToolCall := ⟨"b1", "function", ⟨"beta", "()"⟩⟩

/-- The later fragment that supplies the real ID for the placeholder. -/
def c6Real : ToolCall := ⟨"a1", "", ⟨"page", ":1)"⟩⟩

/-- The example stream: one delta with an anonymous fragment and a named one,
then a delta migrating the placeholder. -/
def c6Deltas : List (List ToolCall) := [[c6Anon, c6B], [c6Real]]

/-- C6: fragments accumulate under the emitted ID when non-empty and under the
placeholder `idx:<i>` otherwise; when a later fragment supplies a real ID the
placeholder entry is migrated to that ID at its first-appearance position
(`replaceFirst` keeps the list length and replaces exactly the first
occurrence in place); per key the name and arguments fragments concatenate in
arrival order while ID and type are overwritten by the last non-empty values;
and the end-of-stream emission follows first-appearance order, as the
end-to-end example shows. -/
theorem streaming_toolcall_reassembly :
    (∀ (i : Nat) (c : ToolCall), (c.id = "" → fragKey i c = "idx:" ++ toString i) ∧
      (c.id ≠ "" → fragKey i c = c.id)) ∧
    (∀ (st : StreamState) (i : Nat) (c ex : ToolCall), c.id ≠ "" →
      c.id ≠ fragFallback i → alLookup st.map (fragFallback i) = some ex →
      (processFragment st i c).order = replaceFirst st.order (fragFallback i) c.id ∧
      alLookup (processFragment st i c).map c.id = some (applyFragmentFields ex c)) ∧
    (∀ (l : List String) (a b : String), (replaceFirst l a b).length = l.length ∧
      ∀ p, (replaceFirst l a b).get? p =
        if p = idxOfStr l a ∧ a ∈ l then some b else l.get? p) ∧
    (∀ (st : StreamState) (i : Nat) (c tc : ToolCall), c.id = "" →
      alLookup st.map (fragFallback i) = some tc →
      (processFragment st i c).order = st.order ∧
      alLookup (processFragment st i c).map (fragFallback i) =
        some (applyFragmentFields tc c)) ∧
    (∀ (st : StreamState) (i : Nat) (c : ToolCall), c.id = "" →
      alLookup st.map (fragFallback i) = none →
      (processFragment st i c).order = st.order ++ [fragFallback i] ∧
      alLookup (processFragment st i c).map (fragFallback i) =
        some ⟨"", c.type, ⟨c.function.name, c.function.arguments⟩⟩) ∧
    (∀ tc c : ToolCall,
      (applyFragmentFields tc c).function.name =
        tc.function.name ++ c.function.name ∧
      (applyFragmentFields tc c).function.arguments =
        tc.function.arguments ++ c.function.arguments ∧
      (c.id ≠ "" → (applyFragmentFields tc c).id = c.id) ∧
      (c.id = "" → (applyFragmentFields tc c).id = tc.id) ∧
      (c.type ≠ "" → (applyFragmentFields tc c).type = c.type) ∧
      (c.type = "" → (applyFragmentFields tc c).type = tc.type)) ∧
    (assembleToolCalls c6Deltas =
      [⟨"a1", "function", ⟨"get_page", "(a:1)"⟩⟩,
       ⟨"b1", "function", ⟨"beta", "()"⟩⟩]) := by
  refine ⟨?_, ?_, ?_, ?_, ?_, ?_, by decide⟩
  · intro i c
    constructor
    · intro h
      simp [fragKey, h, fragFallback]
    · intro h
      simp [fragKey, h]
  · intro st i c ex h1 h2 h3
    rw [processFragment_migrate st i c ex h1 h2 h3]
    exact ⟨rfl, alLookup_alSet_self _ _ _⟩
  · intro l a b
    exact ⟨replaceFirst_length l a b, replaceFirst_get? l a b⟩
  · intro st i c tc h1 h3
    rw [processFragment_existing_anon st i c tc h1 h3]
    exact ⟨rfl, alLookup_alSet_self _ _ _⟩
  · intro st i c h1 h3
    rw [processFragment_fresh_anon st i c h1 h3]
    refine ⟨rfl, (alLookup_alSet_self _ _ _).trans ?_⟩
    unfold applyFragmentFields
    rw [h1]
    by_cases hn : c.function.name = "" <;> by_cases hg : c.function.arguments = "" <;>
      by_cases htp : c.type = "" <;>
      simp [hn, hg, htp, str_empty_append]
  · intro tc c
    unfold applyFragmentFields
    refine ⟨?_, ?_, ?_, ?_, ?_, ?_⟩ <;> intros <;>
      (split_ifs <;> simp_all [str_append_empty])

/-- Concrete instance: an anonymous fragment at an existing placeholder keeps
the order and concatenates name and argument fragments. -/
theorem streaming_toolcall_reassembly_witness :
    (processFragment ⟨[("idx:0", ⟨"", "function", ⟨"ab", "x"⟩⟩)], ["idx:0"]⟩ 0
        ⟨"", "", ⟨"cd", "y"⟩⟩).order = ["idx:0"] ∧
    alLookup (processFragment ⟨[("idx:0", ⟨"", "function", ⟨"ab", "x"⟩⟩)], ["idx:0"]⟩ 0
        ⟨"", "", ⟨"cd", "y"⟩⟩).map (fragFallback 0) =
      some ⟨"", "function", ⟨"abcd", "xy"⟩⟩ := by
  have h := streaming_toolcall_reassembly.2.2.2.1
    ⟨[("idx:0", ⟨"", "function", ⟨"ab", "x"⟩⟩)], ["idx:0"]⟩ 0
    ⟨"", "", ⟨"cd", "y"⟩⟩ ⟨"", "function", ⟨"ab", "x"⟩⟩ rfl (by decide)
  exact ⟨h.1, h.2.trans (by decide)⟩

/- ## C1 — `apply_unified_diff_patch` rollback invariant (`ApplyUnifiedDiffPatch`) -/

/-- One checkpoint commit of the per-worktree store: the snapshot of all
tracked file contents plus the commit message. -/
structure EditorCommit where
  snapshot : List (String × String)
  message : String
deriving DecidableEq, Repr

/-- The editor state: the worktree file contents (path to bytes) and the
commit history reachable from HEAD, oldest first. -/
structure EditorState where
  work : List (String × String)
  commits : List EditorCommit
deriving DecidableEq, Repr

/-- Translation of `CreateCheckpoint` for the whole-worktree scope: stage all
files and commit (allow-empty), returning the new head identifier, modelled
as the commit index. -/
def createCheckpoint (st : EditorState) (message : String) : EditorState × Nat :=
  (⟨st.work,
    st.commits ++ [⟨st.work, if trimSpace message = "" then "editor checkpoint" else message⟩]⟩,
   st.commits.length)

/-- Translation of `rollbackTo`: `git reset --hard <id>` followed by
`git clean -fd` restores the snapshot contents and moves HEAD back, so
commits after the identifier are no longer reachable from HEAD. -/
def rollbackTo (st : EditorState) (id : Nat) : EditorState :=
  match st.commits[id]? with
  | some c => ⟨c.snapshot, st.commits.take (id + 1)⟩
  | none => st

/-- The verify mode of `ApplyUnifiedDiffPatch`. -/
inductive PatchVerifyMode where
  | modeNone
  | modeSyntaxCheck
  | modeTests
deriving DecidableEq, Repr

/-- Translation of `runVerification`: mode none skips verification; otherwise
the (deterministic, externally supplied) verification command decides. -/
def runVerificationOk (mode : PatchVerifyMode)
    (verdict : PatchVerifyMode → List (String × String) → Bool)
    (work : List (String × String)) : Bool :=
  match mode with
  | .modeNone => true
  | m => verdict m work

/-- The pre-apply checkpoint taken at the top of `ApplyUnifiedDiffPatch`. -/
def applyPre (st : EditorState) : EditorState × Nat :=
  createCheckpoint st "editor checkpoint: pre-apply"

/-- Translation of `ApplyUnifiedDiffPatch`.  `gitApply` is the external
`git apply` step: `none` when the patch does not apply, otherwise the patched
worktree.  `postOk` models whether creating the post-apply checkpoint
succeeds.  Every error branch rolls back to the pre-apply checkpoint. -/
def applyUnifiedDiffPatch (gitApply : List (String × String) → Option (List (String × String)))
    (mode : PatchVerifyMode)
    (verdict : PatchVerifyMode → List (String × String) → Bool)
    (postOk : Bool) (st : EditorState) : EditorState × Except String String :=
  match gitApply (applyPre st).1.work with
  | none =>
    (rollbackTo (applyPre st).1 (applyPre st).2,
      .error "failed to apply unified diff (rolled back)")
  | some patched =>
    if runVerificationOk mode verdict patched = false then
      (rollbackTo ⟨patched, (applyPre st).1.commits⟩ (applyPre st).2,
        .error "verification failed and changes were rolled back")
    else if postOk then
      ((createCheckpoint ⟨patched, (applyPre st).1.commits⟩
          "editor checkpoint: post-apply").1,
        .ok ("Patch applied successfully. Checkpoints: pre=" ++
          toString (applyPre st).2 ++ " post=" ++
          toString (createCheckpoint ⟨patched, (applyPre st).1.commits⟩
            "editor checkpoint: post-apply").2))
    else
      (rollbackTo ⟨patched, (applyPre st).1.commits⟩ (applyPre st).2,
        .error "failed to create post-apply checkpoint; rolled back")

theorem applyPre_eq (st : EditorState) :
    applyPre st =
      (⟨st.work, st.commits ++ [⟨st.work, "editor checkpoint: pre-apply"⟩]⟩,
        st.commits.length) := by
  unfold applyPre createCheckpoint
  rw [if_neg (by decide)]

theorem rollbackTo_concat (work1 : List (String × String))
    (commits : List EditorCommit) (c : EditorCommit) :
    rollbackTo ⟨work1, commits ++ [c]⟩ commits.length = ⟨c.snapshot, commits ++ [c]⟩ := by
  unfold rollbackTo
  rw [List.getElem?_concat_length]
  have hlen : (commits ++ [c]).length = commits.length + 1 := by simp
  rw [show (commits ++ [c]).take (commits.length + 1) = commits ++ [c] from by
    rw [← hlen]; exact List.take_length (commits ++ [c])]

/-- C1: whenever `apply_unified_diff_patch` returns an error — the diff fails
to apply, the verification command fails, or the post-apply checkpoint
fails — the worktree contents after the call are byte-identical to the
contents before the call, and the history gains only the pre-apply
checkpoint: no post-apply checkpoint appears. -/
theorem apply_unified_diff_rollback
    (gitApply : List (String × String) → Option (List (String × String)))
    (mode : PatchVerifyMode)
    (verdict : PatchVerifyMode → List (String × String) → Bool)
    (postOk : Bool) (st : EditorState) (e : String)
    (herr : (applyUnifiedDiffPatch gitApply mode verdict postOk st).2 = .error e) :
    (applyUnifiedDiffPatch gitApply mode verdict postOk st).1.work = st.work ∧
    (applyUnifiedDiffPatch gitApply mode verdict postOk st).1.commits =
      st.commits ++ [⟨st.work, "editor checkpoint: pre-apply"⟩] ∧
    ∀ c ∈ (applyUnifiedDiffPatch gitApply mode verdict postOk st).1.commits,
      c.message = "editor checkpoint: post-apply" → c ∈ st.commits := by
  have hmain : (applyUnifiedDiffPatch gitApply mode verdict postOk st).1 =
      ⟨st.work, st.commits ++ [⟨st.work, "editor checkpoint: pre-apply"⟩]⟩ := by
    unfold applyUnifiedDiffPatch at herr ⊢
    simp only [applyPre_eq] at herr ⊢
    rcases happ : gitApply st.work with _ | patched
    · simp only [happ]
      exact rollbackTo_concat st.work st.commits _
    · simp only [happ] at herr ⊢
      split_ifs at herr ⊢ with hver hpost
      · exact rollbackTo_concat patched st.commits _
      · exact rollbackTo_concat patched st.commits _
  refine ⟨by rw [hmain], by rw [hmain], ?_⟩
  intro c hc hmsg
  rw [hmain] at hc
  rcases List.mem_append.mp hc with h1 | h1
  · exact h1
  · rcases List.mem_singleton.mp h1 with rfl
    simp at hmsg

/-- Concrete instance: a syntax-verification failure leaves the single file
unchanged and adds only the pre-apply checkpoint. -/
theorem apply_unified_diff_rollback_witness :
    (applyUnifiedDiffPatch (fun _ => some [("main.go", "v1")]) .modeSyntaxCheck
        (fun _ _ => false) true ⟨[("main.go", "v0")], []⟩).1.work =
      [("main.go", "v0")] ∧
    (applyUnifiedDiffPatch (fun _ => some [("main.go", "v1")]) .modeSyntaxCheck
        (fun _ _ => false) true ⟨[("main.go", "v0")], []⟩).1.commits =
      [] ++ [⟨[("main.go", "v0")], "editor checkpoint: pre-apply"⟩] := by
  have h := apply_unified_diff_rollback (fun _ => some [("main.go", "v1")])
    .modeSyntaxCheck (fun _ _ => false) true ⟨[("main.go", "v0")], []⟩
    "verification failed and changes were rolled back" rfl
  exact ⟨h.1, h.2.1⟩
